import Mathlib

/-!
Verification of the bspricer pricing core (`src/utils.py`) in a shallow
real-number embedding.

Python floating point is modelled over `ℝ`.  Operations of `black_scholes`
that can raise Python exceptions (`ZeroDivisionError` from `x / 0.0`,
`ValueError` math domain errors from `math.log` / `math.sqrt`) return
`Except PyErr`.  The NumPy/pandas arithmetic of `calc_hist_vol`, which never
raises but propagates `inf` / `-inf` / `nan`, is modelled by the inductive
type `PyF`.  `scipy.stats.norm.cdf` is modelled by the exact standard normal
cumulative distribution function `normCDF`.
-/

open MeasureTheory Set
open scoped Classical

noncomputable section

/-- Python exceptions that the unvalidated arithmetic of `black_scholes` can
raise: `ZeroDivisionError` from float division by zero, and `ValueError`
("math domain error") from `math.log` / `math.sqrt` on out-of-domain
arguments. -/
inductive PyErr : Type
  | zeroDivisionError
  | mathDomainError
  deriving DecidableEq

/-- Python float division `a / b`, raising `ZeroDivisionError` when `b = 0`. -/
def pyDivE (a b : ℝ) : Except PyErr ℝ :=
  if b = 0 then .error .zeroDivisionError else .ok (a / b)

/-- Python `math.log`, raising a math domain error off `(0, ∞)`. -/
def pyLogE (x : ℝ) : Except PyErr ℝ :=
  if x ≤ 0 then .error .mathDomainError else .ok (Real.log x)

/-- Python `math.sqrt`, raising a math domain error on negative arguments. -/
def pySqrtE (x : ℝ) : Except PyErr ℝ :=
  if x < 0 then .error .mathDomainError else .ok (Real.sqrt x)

/-- Density of the standard normal distribution. -/
def stdNormalPDF (t : ℝ) : ℝ :=
  (Real.sqrt (2 * Real.pi))⁻¹ * Real.exp (-t ^ 2 / 2)

/-- Standard normal cumulative distribution function Φ, the idealised value
computed by `scipy.stats.norm.cdf`. -/
def normCDF (x : ℝ) : ℝ := ∫ t in Iic x, stdNormalPDF t

/-- The quantity `d1` of the Black-Scholes formula, exactly as computed on
line 39 of `src/utils.py`. -/
def bsD1 (S K T r sigma : ℝ) : ℝ :=
  (Real.log (S / K) + (r + 0.5 * sigma ^ 2) * T) / (sigma * Real.sqrt T)

/-- The quantity `d2 = d1 - sigma * sqrt T` (line 40 of `src/utils.py`). -/
def bsD2 (S K T r sigma : ℝ) : ℝ :=
  bsD1 S K T r sigma - sigma * Real.sqrt T

/-- The call branch value `S*Φ(d1) - K*exp(-r*T)*Φ(d2)` (line 42 of
`src/utils.py`). -/
def bsCall (S K T r sigma : ℝ) : ℝ :=
  S * normCDF (bsD1 S K T r sigma) -
    K * Real.exp (-r * T) * normCDF (bsD2 S K T r sigma)

/-- The put branch value `K*exp(-r*T)*Φ(-d2) - S*Φ(-d1)` (line 44 of
`src/utils.py`). -/
def bsPut (S K T r sigma : ℝ) : ℝ :=
  K * Real.exp (-r * T) * normCDF (-bsD2 S K T r sigma) -
    S * normCDF (-bsD1 S K T r sigma)

/-- Shallow embedding of `black_scholes(S, K, T, r, sigma, option_type)` from
`src/utils.py` (lines 38-46), with the Python arithmetic exceptions the
unvalidated formula raises made explicit in evaluation order:
`S / K`, then `math.log`, then `math.sqrt(T)`, then the division by
`sigma * sqrt(T)`.  An unrecognised `option_type` reaches the final `else`
and returns Python's `None`, modelled as `Except.ok Option.none`. -/
def black_scholes (S K T r sigma : ℝ) (option_type : String) :
    Except PyErr (Option ℝ) :=
  match pyDivE S K with
  | .error e => .error e
  | .ok ratio =>
    match pyLogE ratio with
    | .error e => .error e
    | .ok lg =>
      match pySqrtE T with
      | .error e => .error e
      | .ok sqT =>
        match pyDivE (lg + (r + 0.5 * sigma ^ 2) * T) (sigma * sqT) with
        | .error e => .error e
        | .ok d1 =>
          let d2 := d1 - sigma * sqT
          if option_type = "call" then
            .ok (some (S * normCDF d1 - K * Real.exp (-r * T) * normCDF d2))
          else if option_type = "put" then
            .ok (some (K * Real.exp (-r * T) * normCDF (-d2) - S * normCDF (-d1)))
          else
            .ok none

/-- NumPy/pandas double values as seen by `calc_hist_vol`: a finite real
number, the two infinities, or `nan` (which is also how a missing price is
represented). -/
inductive PyF : Type
  | fin (x : ℝ)
  | inf
  | ninf
  | nan

/-- NumPy `isnan`. -/
def PyF.isNan : PyF → Bool
  | .nan => true
  | _ => false

/-- IEEE negation. -/
def pfNeg : PyF → PyF
  | .fin x => .fin (-x)
  | .inf => .ninf
  | .ninf => .inf
  | .nan => .nan

/-- IEEE addition as NumPy performs it: `nan` propagates and opposite
infinities give `nan`. -/
def pfAdd : PyF → PyF → PyF
  | .nan, _ => .nan
  | _, .nan => .nan
  | .fin a, .fin b => .fin (a + b)
  | .fin _, .inf => .inf
  | .fin _, .ninf => .ninf
  | .inf, .fin _ => .inf
  | .ninf, .fin _ => .ninf
  | .inf, .inf => .inf
  | .ninf, .ninf => .ninf
  | .inf, .ninf => .nan
  | .ninf, .inf => .nan

/-- IEEE subtraction, `a + (-b)`. -/
def pfSub (a b : PyF) : PyF := pfAdd a (pfNeg b)

/-- IEEE multiplication as NumPy performs it: `0 * inf = nan`, `nan`
propagates. -/
def pfMul : PyF → PyF → PyF
  | .nan, _ => .nan
  | _, .nan => .nan
  | .fin a, .fin b => .fin (a * b)
  | .fin a, .inf => if a = 0 then .nan else if 0 < a then .inf else .ninf
  | .fin a, .ninf => if a = 0 then .nan else if 0 < a then .ninf else .inf
  | .inf, .fin b => if b = 0 then .nan else if 0 < b then .inf else .ninf
  | .ninf, .fin b => if b = 0 then .nan else if 0 < b then .ninf else .inf
  | .inf, .inf => .inf
  | .ninf, .ninf => .inf
  | .inf, .ninf => .ninf
  | .ninf, .inf => .ninf

/-- NumPy elementwise division as in `data / data.shift(1)`: division of a
nonzero number by zero yields a signed infinity (a warning, not an
exception), `0 / 0` yields `nan`, and `nan` propagates. -/
def pfDiv : PyF → PyF → PyF
  | .nan, _ => .nan
  | _, .nan => .nan
  | .fin a, .fin b =>
      if b = 0 then (if a = 0 then .nan else if 0 < a then .inf else .ninf)
      else .fin (a / b)
  | .fin _, .inf => .fin 0
  | .fin _, .ninf => .fin 0
  | .inf, .fin b => if 0 ≤ b then .inf else .ninf
  | .ninf, .fin b => if 0 ≤ b then .ninf else .inf
  | .inf, _ => .nan
  | .ninf, _ => .nan

/-- NumPy `log` on the extended values: `log 0 = -inf`, `log` of a negative
number or of `-inf` is `nan`, `log inf = inf`. -/
def pfLog : PyF → PyF
  | .nan => .nan
  | .inf => .inf
  | .ninf => .nan
  | .fin x => if x < 0 then .nan else if x = 0 then .ninf else .fin (Real.log x)

/-- NumPy `sqrt`: `nan` on negatives, `inf` on `inf`. -/
def pfSqrt : PyF → PyF
  | .nan => .nan
  | .inf => .inf
  | .ninf => .nan
  | .fin x => if x < 0 then .nan else .fin (Real.sqrt x)

/-- pandas sum of a series, folding addition from the left. -/
def pfSum (xs : List PyF) : PyF := xs.foldl pfAdd (.fin 0)

/-- pandas mean of a series. -/
def pfMean (xs : List PyF) : PyF := pfDiv (pfSum xs) (.fin xs.length)

/-- pandas `Series.std()` with its default `ddof = 1`: the square root of the
sum of squared deviations from the mean divided by `n - 1`; on fewer than two
values the result is `nan` (division `0 / 0` of the degenerate variance). -/
def pfStd (xs : List PyF) : PyF :=
  if xs.length < 2 then .nan
  else
    pfSqrt (pfDiv
      (pfSum (xs.map fun x => pfMul (pfSub x (pfMean xs)) (pfSub x (pfMean xs))))
      (.fin ((xs.length : ℝ) - 1)))

/-- Python truth value of the final check
`hist_vol <= 0 or np.isnan(hist_vol)` in `calc_hist_vol`: comparisons with
`nan` are `False`, but the `isnan` disjunct catches `nan`. -/
def pfDegenerate : PyF → Prop
  | .fin x => x ≤ 0
  | .inf => False
  | .ninf => True
  | .nan => True

/-- The two distinct failure modes `calc_hist_vol` raises as `ValueError`s:
the messages `"Unable to fetch valid historical data"` and
`"Unable to calculate log returns"` are the spec's `InsufficientDataError`,
and `"Calculated volatility is invalid"` is the spec's
`DegenerateVolatilityError`. -/
inductive VolError : Type
  | insufficientData
  | degenerateVolatility
  deriving DecidableEq

/-- The filtered log returns `np.log(data / data.shift(1)).dropna()`
(line 71 of `src/utils.py`): `data.shift(1)` prepends `nan` and drops the
last element, the division is elementwise, and `dropna` removes exactly the
`nan` entries (it does not remove infinities). -/
def logReturnsF (data : List PyF) : List PyF :=
  ((data.zipWith pfDiv (.nan :: data)).map pfLog).filter fun v => !v.isNan

/-- Number of non-missing (non-`nan`) prices in a series. -/
def validPriceCount (data : List PyF) : ℕ := data.countP fun v => !v.isNan

/-- Shallow embedding of the computational part of `calc_hist_vol` from
`src/utils.py` (lines 50-86), taking the already-fetched `Close` series.
The three `raise ValueError` sites are mapped to `VolError` as documented on
that type. -/
def calc_hist_vol (data : List PyF) : Except VolError PyF :=
  if data.length < 2 then .error .insufficientData
  else if (logReturnsF data).length = 0 then .error .insufficientData
  else
    let hist_vol := pfMul (pfStd (logReturnsF data)) (pfSqrt (.fin 252))
    if pfDegenerate hist_vol then .error .degenerateVolatility
    else .ok hist_vol

/-- Log returns over consecutive closes of a real price series,
`r_i = ln (P_i / P_(i-1))`, as the spec describes them. -/
def logReturns (ps : List ℝ) : List ℝ :=
  ps.tail.zipWith (fun c p => Real.log (c / p)) ps

/-- Sample standard deviation (divisor `n - 1`), the value pandas'
`Series.std()` computes on an all-finite series of length at least two. -/
def sampleStd (rs : List ℝ) : ℝ :=
  Real.sqrt ((rs.map fun x => (x - rs.sum / rs.length) ^ 2).sum /
    ((rs.length : ℝ) - 1))

/-- Outcome of the provider interaction inside `get_risk_free_rate`: either
the value of `yf.Ticker('^IRX').fast_info.get('lastPrice', None)` (possibly
`None`) or an exception raised while fetching. -/
inductive RateFetch : Type
  | quote (q : Option ℝ)
  | failure

/-- Shallow embedding of `get_risk_free_rate` (`src/utils.py` lines 90-115)
as a function of the provider outcome.  The guard
`if risk_free_rate and risk_free_rate > 0` uses Python truthiness (`None`
and `0.0` are falsy), and the surrounding `try`/`except` returns the default
`0.02` on any raised exception. -/
def get_risk_free_rate (fetch : RateFetch) : ℝ :=
  match fetch with
  | .failure => 0.02
  | .quote none => 0.02
  | .quote (some q) => if q ≠ 0 ∧ 0 < q then q / 100 else 0.02

/-- Result of one call of the wrapper produced by `retry_with_backoff`: the
wrapped function's value, the implicit Python `None` when the `for` loop
body never runs, or the exception finally re-raised. -/
inductive RetryResult (E A : Type) : Type
  | value (a : A)
  | pyNone
  | raised (e : E)

/-- Observable trace of one wrapper call: its result, the backoff waits
performed in order, and how many times the wrapped function was invoked. -/
structure RetryTrace (E A : Type) : Type where
  result : RetryResult E A
  waits : List ℝ
  calls : ℕ

/-- Shallow embedding of the `for attempt in range(max_retries)` loop of
`retry_with_backoff` (`src/utils.py` lines 17-34), started at a given
attempt index.  `op n` is the outcome of the `n`-th invocation (0-based) of
the wrapped function; each failed non-final attempt sleeps
`backoff_factor * 2 ** attempt` before continuing. -/
def retryFrom {E A : Type} (op : ℕ → Except E A) (backoff_factor : ℝ)
    (max_retries : ℤ) (attempt : ℕ) : RetryTrace E A :=
  if h : (attempt : ℤ) < max_retries then
    match op attempt with
    | .ok a => ⟨.value a, [], 1⟩
    | .error e =>
      if (attempt : ℤ) < max_retries - 1 then
        let rest := retryFrom op backoff_factor max_retries (attempt + 1)
        ⟨rest.result, backoff_factor * 2 ^ attempt :: rest.waits, rest.calls + 1⟩
      else
        ⟨.raised e, [], 1⟩
  else
    ⟨.pyNone, [], 0⟩
termination_by (max_retries - attempt).toNat
decreasing_by omega

/-- One full call of a function wrapped by
`retry_with_backoff(max_retries, backoff_factor)`. -/
def retry_with_backoff {E A : Type} (max_retries : ℤ) (backoff_factor : ℝ)
    (op : ℕ → Except E A) : RetryTrace E A :=
  retryFrom op backoff_factor max_retries 0

end

section Lemmata

/-- Helper: the standard normal density is nonnegative. -/
theorem stdNormalPDF_nonneg (t : ℝ) : 0 ≤ stdNormalPDF t := by
  unfold stdNormalPDF
  positivity

/-- Helper: the density in the `exp (-b * x ^ 2)` shape used by Mathlib's
Gaussian integral lemmas. -/
theorem stdNormalPDF_eq :
    stdNormalPDF = fun t => (Real.sqrt (2 * Real.pi))⁻¹ * Real.exp (-(1 / 2) * t ^ 2) := by
  funext t
  unfold stdNormalPDF
  have h : -t ^ 2 / 2 = -(1 / 2) * t ^ 2 := by ring
  rw [h]

/-- Helper: the standard normal density is integrable. -/
theorem integrable_stdNormalPDF : Integrable stdNormalPDF := by
  rw [stdNormalPDF_eq]
  exact (integrable_exp_neg_mul_sq (by norm_num)).const_mul _

/-- Helper: the standard normal density has total mass one. -/
theorem integral_stdNormalPDF : ∫ t, stdNormalPDF t = 1 := by
  rw [stdNormalPDF_eq, integral_mul_left, integral_gaussian]
  rw [show Real.pi / (1 / 2) = 2 * Real.pi by ring]
  exact inv_mul_cancel₀ (ne_of_gt (Real.sqrt_pos.mpr (by positivity)))

/-- Helper: translation of a set integral over `Iic`. -/
theorem setIntegral_Iic_comp_add (f : ℝ → ℝ) (b c : ℝ) :
    ∫ t in Iic b, f (t + c) = ∫ t in Iic (b + c), f t := by
  have h1 : ∀ t : ℝ,
      (Iic b).indicator (fun s => f (s + c)) t = (Iic (b + c)).indicator f (t + c) := by
    intro t
    by_cases ht : t ≤ b
    · rw [Set.indicator_of_mem (mem_Iic.mpr ht),
        Set.indicator_of_mem (mem_Iic.mpr (by linarith))]
    · rw [Set.indicator_of_not_mem (fun hmem => ht (mem_Iic.mp hmem)),
        Set.indicator_of_not_mem (fun hmem => ht (by have := mem_Iic.mp hmem; linarith))]
  rw [← integral_indicator measurableSet_Iic, ← integral_indicator measurableSet_Iic]
  calc ∫ t, (Iic b).indicator (fun s => f (s + c)) t
      = ∫ t, (Iic (b + c)).indicator f (t + c) := by simp_rw [h1]
    _ = ∫ t, (Iic (b + c)).indicator f t := integral_add_right_eq_self _ c

/-- Helper: `Φ` is a nonnegative function. -/
theorem normCDF_nonneg (x : ℝ) : 0 ≤ normCDF x :=
  setIntegral_nonneg measurableSet_Iic fun t _ => stdNormalPDF_nonneg t

/-- Helper: reflection symmetry `Φ(x) + Φ(-x) = 1` of the standard normal
CDF. -/
theorem normCDF_add_normCDF_neg (x : ℝ) : normCDF x + normCDF (-x) = 1 := by
  have heven : ∀ t : ℝ, stdNormalPDF (-t) = stdNormalPDF t := by
    intro t
    unfold stdNormalPDF
    rw [neg_pow, show ((-1 : ℝ) ^ 2) = 1 by norm_num, one_mul]
  have h1 : normCDF (-x) = ∫ t in Ioi x, stdNormalPDF t := by
    unfold normCDF
    have hcongr : ∫ t in Iic (-x), stdNormalPDF t = ∫ t in Iic (-x), stdNormalPDF (-t) :=
      setIntegral_congr_fun measurableSet_Iic fun t _ => (heven t).symm
    rw [hcongr, integral_comp_neg_Iic, neg_neg]
  have hsplit : normCDF x + ∫ t in Ioi x, stdNormalPDF t = ∫ t, stdNormalPDF t := by
    unfold normCDF
    rw [← Set.compl_Iic]
    exact integral_add_compl measurableSet_Iic integrable_stdNormalPDF
  rw [h1, hsplit, integral_stdNormalPDF]

/-- Helper: the core Black-Scholes comparison.  For `v > 0` and any `m`,
`Φ((m - v²/2)/v) ≤ exp m * Φ((m + v²/2)/v)`; with `m = ln(S/K) + rT` and
`v = σ√T` this is exactly `K e^{-rT} Φ(d2) ≤ S Φ(d1)`. -/
theorem normCDF_le_exp_mul_normCDF (m v : ℝ) (hv : 0 < v) :
    normCDF ((m - v ^ 2 / 2) / v) ≤ Real.exp m * normCDF ((m + v ^ 2 / 2) / v) := by
  set d2 := (m - v ^ 2 / 2) / v with hd2
  have hd1 : (m + v ^ 2 / 2) / v = d2 + v := by
    rw [hd2]
    field_simp
    ring
  rw [hd1]
  have hshift : normCDF (d2 + v) = ∫ t in Iic d2, stdNormalPDF (t + v) :=
    (setIntegral_Iic_comp_add stdNormalPDF d2 v).symm
  rw [hshift, ← integral_mul_left]
  unfold normCDF
  apply setIntegral_mono_on
  · exact integrable_stdNormalPDF.integrableOn
  · exact ((integrable_stdNormalPDF.comp_add_right v).const_mul _).integrableOn
  · exact measurableSet_Iic
  · intro t ht
    rw [mem_Iic, hd2] at ht
    have htv : t * v ≤ m - v ^ 2 / 2 := (le_div_iff₀ hv).mp ht
    have hexp : Real.exp (-t ^ 2 / 2) ≤ Real.exp m * Real.exp (-(t + v) ^ 2 / 2) := by
      rw [← Real.exp_add]
      apply Real.exp_le_exp.mpr
      nlinarith
    have hc : (0 : ℝ) ≤ (Real.sqrt (2 * Real.pi))⁻¹ :=
      inv_nonneg.mpr (Real.sqrt_nonneg _)
    unfold stdNormalPDF
    calc (Real.sqrt (2 * Real.pi))⁻¹ * Real.exp (-t ^ 2 / 2)
        ≤ (Real.sqrt (2 * Real.pi))⁻¹ * (Real.exp m * Real.exp (-(t + v) ^ 2 / 2)) :=
          mul_le_mul_of_nonneg_left hexp hc
      _ = Real.exp m * ((Real.sqrt (2 * Real.pi))⁻¹ * Real.exp (-(t + v) ^ 2 / 2)) := by
          ring

/-- Helper: on valid inputs every guarded primitive of `black_scholes`
succeeds and the function returns the call/put formula values. -/
theorem black_scholes_ok (S K T r sigma : ℝ)
    (hS : 0 < S) (hK : 0 < K) (hT : 0 < T) (hsig : 0 < sigma) :
    black_scholes S K T r sigma ("call") = .ok (some (bsCall S K T r sigma)) ∧
    black_scholes S K T r sigma ("put") = .ok (some (bsPut S K T r sigma)) := by
  have hK0 : K ≠ 0 := ne_of_gt hK
  have hratio : ¬ S / K ≤ 0 := not_le.mpr (div_pos hS hK)
  have hTnn : ¬ T < 0 := not_lt.mpr hT.le
  have hden : sigma * Real.sqrt T ≠ 0 :=
    ne_of_gt (mul_pos hsig (Real.sqrt_pos.mpr hT))
  constructor <;>
    simp [black_scholes, pyDivE, pyLogE, pySqrtE, hK0, hratio, hTnn, hden,
      bsCall, bsPut, bsD1, bsD2]

/-- Helper: `d1` in the `(m + v²/2)/v` shape with `m = ln(S/K) + rT` and
`v = σ√T`. -/
theorem bsD1_shape (S K T r sigma : ℝ) (hT : 0 < T) :
    bsD1 S K T r sigma =
      ((Real.log (S / K) + r * T) + (sigma * Real.sqrt T) ^ 2 / 2) /
        (sigma * Real.sqrt T) := by
  unfold bsD1
  rw [mul_pow, Real.sq_sqrt hT.le]
  ring_nf

/-- Helper: `d2` in the `(m - v²/2)/v` shape. -/
theorem bsD2_shape (S K T r sigma : ℝ) (hT : 0 < T) (hsig : 0 < sigma) :
    bsD2 S K T r sigma =
      ((Real.log (S / K) + r * T) - (sigma * Real.sqrt T) ^ 2 / 2) /
        (sigma * Real.sqrt T) := by
  have hv : sigma * Real.sqrt T ≠ 0 :=
    ne_of_gt (mul_pos hsig (Real.sqrt_pos.mpr hT))
  unfold bsD2
  rw [bsD1_shape S K T r sigma hT]
  field_simp
  ring

/-- Helper: the Black-Scholes call value is nonnegative on valid inputs. -/
theorem bsCall_nonneg (S K T r sigma : ℝ)
    (hS : 0 < S) (hK : 0 < K) (hT : 0 < T) (hsig : 0 < sigma) :
    0 ≤ bsCall S K T r sigma := by
  have hv : 0 < sigma * Real.sqrt T := mul_pos hsig (Real.sqrt_pos.mpr hT)
  have hkey := normCDF_le_exp_mul_normCDF (Real.log (S / K) + r * T)
    (sigma * Real.sqrt T) hv
  rw [← bsD1_shape S K T r sigma hT, ← bsD2_shape S K T r sigma hT hsig] at hkey
  have hKe : (0 : ℝ) < K * Real.exp (-r * T) := mul_pos hK (Real.exp_pos _)
  have hS_eq : K * Real.exp (-r * T) * Real.exp (Real.log (S / K) + r * T) = S := by
    rw [Real.exp_add, Real.exp_log (div_pos hS hK), neg_mul, Real.exp_neg]
    field_simp
    ring
  have hle : K * Real.exp (-r * T) * normCDF (bsD2 S K T r sigma) ≤
      S * normCDF (bsD1 S K T r sigma) := by
    calc K * Real.exp (-r * T) * normCDF (bsD2 S K T r sigma)
        ≤ K * Real.exp (-r * T) *
            (Real.exp (Real.log (S / K) + r * T) * normCDF (bsD1 S K T r sigma)) :=
          mul_le_mul_of_nonneg_left hkey hKe.le
      _ = K * Real.exp (-r * T) * Real.exp (Real.log (S / K) + r * T) *
            normCDF (bsD1 S K T r sigma) := by ring
      _ = S * normCDF (bsD1 S K T r sigma) := by rw [hS_eq]
  unfold bsCall
  linarith

/-- Helper: the Black-Scholes put value is nonnegative on valid inputs. -/
theorem bsPut_nonneg (S K T r sigma : ℝ)
    (hS : 0 < S) (hK : 0 < K) (hT : 0 < T) (hsig : 0 < sigma) :
    0 ≤ bsPut S K T r sigma := by
  have hv : 0 < sigma * Real.sqrt T := mul_pos hsig (Real.sqrt_pos.mpr hT)
  have hkey := normCDF_le_exp_mul_normCDF (-(Real.log (S / K) + r * T))
    (sigma * Real.sqrt T) hv
  have hnd1 : -bsD1 S K T r sigma =
      (-(Real.log (S / K) + r * T) - (sigma * Real.sqrt T) ^ 2 / 2) /
        (sigma * Real.sqrt T) := by
    rw [bsD1_shape S K T r sigma hT]
    ring
  have hnd2 : -bsD2 S K T r sigma =
      (-(Real.log (S / K) + r * T) + (sigma * Real.sqrt T) ^ 2 / 2) /
        (sigma * Real.sqrt T) := by
    rw [bsD2_shape S K T r sigma hT hsig]
    ring
  rw [← hnd1, ← hnd2] at hkey
  have hS_eq : S * Real.exp (-(Real.log (S / K) + r * T)) = K * Real.exp (-r * T) := by
    rw [neg_add, Real.exp_add, Real.exp_neg, Real.exp_log (div_pos hS hK), neg_mul,
      Real.exp_neg]
    field_simp
    ring
  have hle : S * normCDF (-bsD1 S K T r sigma) ≤
      K * Real.exp (-r * T) * normCDF (-bsD2 S K T r sigma) := by
    calc S * normCDF (-bsD1 S K T r sigma)
        ≤ S * (Real.exp (-(Real.log (S / K) + r * T)) *
            normCDF (-bsD2 S K T r sigma)) :=
          mul_le_mul_of_nonneg_left hkey hS.le
      _ = S * Real.exp (-(Real.log (S / K) + r * T)) *
            normCDF (-bsD2 S K T r sigma) := by ring
      _ = K * Real.exp (-r * T) * normCDF (-bsD2 S K T r sigma) := by rw [hS_eq]
  unfold bsPut
  linarith

/-- Helper: exact put-call parity of the two branch values. -/
theorem bsCall_sub_bsPut (S K T r sigma : ℝ) :
    bsCall S K T r sigma - bsPut S K T r sigma = S - K * Real.exp (-r * T) := by
  unfold bsCall bsPut
  have h1 := normCDF_add_normCDF_neg (bsD1 S K T r sigma)
  have h2 := normCDF_add_normCDF_neg (bsD2 S K T r sigma)
  linear_combination S * h1 - K * Real.exp (-r * T) * h2

/-- Claim C1: for every input with `S>0`, `K>0`, `T>0`, `sigma>0`,
`black_scholes` computes `d1 = (ln(S/K) + (r + 0.5 σ²) T)/(σ √T)` and
`d2 = d1 - σ √T` and returns `S Φ(d1) - K e^{-rT} Φ(d2)` for a call and
`K e^{-rT} Φ(-d2) - S Φ(-d1)` for a put, where Φ is the standard normal CDF
(`bsD1`, `bsD2`, `bsCall`, `bsPut` are literally these formulas). -/
theorem C1_black_scholes_formula (S K T r sigma : ℝ)
    (hS : 0 < S) (hK : 0 < K) (hT : 0 < T) (hsig : 0 < sigma) :
    black_scholes S K T r sigma ("call") = .ok (some (bsCall S K T r sigma)) ∧
    black_scholes S K T r sigma ("put") = .ok (some (bsPut S K T r sigma)) :=
  black_scholes_ok S K T r sigma hS hK hT hsig

/-- Witness for C1 at `S = K = T = sigma = 1`, `r = 0`. -/
theorem C1_black_scholes_formula_witness :
    black_scholes 1 1 1 0 1 ("call") = .ok (some (bsCall 1 1 1 0 1)) ∧
    black_scholes 1 1 1 0 1 ("put") = .ok (some (bsPut 1 1 1 0 1)) :=
  C1_black_scholes_formula 1 1 1 0 1 (by norm_num) (by norm_num) (by norm_num)
    (by norm_num)

/-- Counterexample for C2: at `S = K = 100`, `T = 0`, `r = 0.05`,
`sigma = 0.2` the code raises `ZeroDivisionError` (the denominator
`sigma * sqrt(T)` is zero); there is no `InvalidInputError` anywhere in the
code. -/
theorem C2_counterexample :
    black_scholes 100 100 0 (1 / 20) (1 / 5) ("call") =
      .error .zeroDivisionError := by
  norm_num [black_scholes, pyDivE, pyLogE, pySqrtE, Real.sqrt_zero]

/-- Claim C2 amended: for `S>0`, `K>0`, `T≥0`, if `T = 0` or `sigma = 0`
then `black_scholes` fails with the arithmetic error `ZeroDivisionError`
(from the division by `sigma * sqrt(T) = 0`) for every option kind; the code
performs no validation and defines no `InvalidInputError`. -/
theorem C2_zero_T_or_sigma_amended (S K T r sigma : ℝ) (kind : String)
    (hS : 0 < S) (hK : 0 < K) (hT : 0 ≤ T) (h : T = 0 ∨ sigma = 0) :
    black_scholes S K T r sigma kind = .error .zeroDivisionError := by
  have hK0 : K ≠ 0 := ne_of_gt hK
  have hratio : ¬ S / K ≤ 0 := not_le.mpr (div_pos hS hK)
  have hTnn : ¬ T < 0 := not_lt.mpr hT
  have hden : sigma * Real.sqrt T = 0 := by
    rcases h with h | h
    · rw [h, Real.sqrt_zero, mul_zero]
    · rw [h, zero_mul]
  simp [black_scholes, pyDivE, pyLogE, pySqrtE, hK0, hratio, hTnn, hden]

/-- Witness for the amended C2 at `S = K = sigma = 1`, `T = 0`, `r = 0`. -/
theorem C2_zero_T_or_sigma_amended_witness :
    black_scholes 1 1 0 0 1 ("put") = .error .zeroDivisionError :=
  C2_zero_T_or_sigma_amended 1 1 0 0 1 ("put") (by norm_num) (by norm_num)
    (by norm_num) (Or.inl rfl)

/-- Counterexample for C3: on a perfectly valid input with the unrecognized
option kind `"straddle"`, the code returns Python's `None` (an unspecified
sentinel) instead of failing with `UnsupportedOptionKindError` (which does
not exist in the code). -/
theorem C3_counterexample :
    black_scholes 100 100 1 (1 / 20) (1 / 5) ("straddle") = .ok none := by
  have hden : (1 / 5 : ℝ) * Real.sqrt 1 ≠ 0 := by
    rw [Real.sqrt_one]
    norm_num
  norm_num [black_scholes, pyDivE, pyLogE, pySqrtE, hden]
  rw [if_neg (by decide : ¬ ("straddle" : String) = "call"),
    if_neg (by decide : ¬ ("straddle" : String) = "put")]

/-- Claim C3 amended: for every valid pricing input and an option kind
outside `{"call", "put"}`, `black_scholes` returns Python's `None`
(`Except.ok Option.none`), an unspecified sentinel, rather than raising. -/
theorem C3_unknown_kind_amended (S K T r sigma : ℝ) (kind : String)
    (hS : 0 < S) (hK : 0 < K) (hT : 0 < T) (hsig : 0 < sigma)
    (hc : kind ≠ "call") (hp : kind ≠ "put") :
    black_scholes S K T r sigma kind = .ok none := by
  have hK0 : K ≠ 0 := ne_of_gt hK
  have hratio : ¬ S / K ≤ 0 := not_le.mpr (div_pos hS hK)
  have hTnn : ¬ T < 0 := not_lt.mpr hT.le
  have hden : sigma * Real.sqrt T ≠ 0 :=
    ne_of_gt (mul_pos hsig (Real.sqrt_pos.mpr hT))
  simp [black_scholes, pyDivE, pyLogE, pySqrtE, hK0, hratio, hTnn, hden, hc, hp]

/-- Witness for the amended C3 at `S = K = T = sigma = 1`, `r = 0`,
kind `"butterfly"`. -/
theorem C3_unknown_kind_amended_witness :
    black_scholes 1 1 1 0 1 ("butterfly") = .ok none :=
  C3_unknown_kind_amended 1 1 1 0 1 ("butterfly") (by norm_num) (by norm_num)
    (by norm_num) (by norm_num) (by decide) (by decide)

/-- Claim C4: for every input with `S = K` and `T, sigma, r > 0`, the call
price minus the put price returned by `black_scholes` equals
`S - K exp(-rT)` within `1e-6` (put-call parity; the identity is in fact
exact). -/
theorem C4_put_call_parity (S K T r sigma : ℝ) (hSK : S = K)
    (hS : 0 < S) (hT : 0 < T) (hsig : 0 < sigma) (hr : 0 < r) :
    black_scholes S K T r sigma ("call") = .ok (some (bsCall S K T r sigma)) ∧
    black_scholes S K T r sigma ("put") = .ok (some (bsPut S K T r sigma)) ∧
    |bsCall S K T r sigma - bsPut S K T r sigma -
      (S - K * Real.exp (-r * T))| ≤ 1e-6 := by
  have hK : 0 < K := hSK ▸ hS
  obtain ⟨h1, h2⟩ := black_scholes_ok S K T r sigma hS hK hT hsig
  refine ⟨h1, h2, ?_⟩
  rw [bsCall_sub_bsPut, sub_self, abs_zero]
  norm_num

/-- Witness for C4 at `S = K = 100`, `T = sigma = r = 1`. -/
theorem C4_put_call_parity_witness :
    black_scholes 100 100 1 1 1 ("call") = .ok (some (bsCall 100 100 1 1 1)) ∧
    black_scholes 100 100 1 1 1 ("put") = .ok (some (bsPut 100 100 1 1 1)) ∧
    |bsCall 100 100 1 1 1 - bsPut 100 100 1 1 1 -
      (100 - 100 * Real.exp (-1 * 1))| ≤ 1e-6 :=
  C4_put_call_parity 100 100 1 1 1 rfl (by norm_num) (by norm_num) (by norm_num)
    (by norm_num)

/-- Claim C9: for every valid input (`S, K, T, sigma > 0`, any real `r`) and
kind in `{"call", "put"}`, the price returned by `black_scholes` is never
negative. -/
theorem C9_price_nonneg (S K T r sigma : ℝ)
    (hS : 0 < S) (hK : 0 < K) (hT : 0 < T) (hsig : 0 < sigma) :
    black_scholes S K T r sigma ("call") = .ok (some (bsCall S K T r sigma)) ∧
    black_scholes S K T r sigma ("put") = .ok (some (bsPut S K T r sigma)) ∧
    0 ≤ bsCall S K T r sigma ∧ 0 ≤ bsPut S K T r sigma := by
  obtain ⟨h1, h2⟩ := black_scholes_ok S K T r sigma hS hK hT hsig
  exact ⟨h1, h2, bsCall_nonneg S K T r sigma hS hK hT hsig,
    bsPut_nonneg S K T r sigma hS hK hT hsig⟩

/-- Witness for C9 at `S = 2`, `K = 1`, `T = 1`, `r = -1`, `sigma = 1`. -/
theorem C9_price_nonneg_witness :
    black_scholes 2 1 1 (-1) 1 ("call") = .ok (some (bsCall 2 1 1 (-1) 1)) ∧
    black_scholes 2 1 1 (-1) 1 ("put") = .ok (some (bsPut 2 1 1 (-1) 1)) ∧
    0 ≤ bsCall 2 1 1 (-1) 1 ∧ 0 ≤ bsPut 2 1 1 (-1) 1 :=
  C9_price_nonneg 2 1 1 (-1) 1 (by norm_num) (by norm_num) (by norm_num)
    (by norm_num)

@[simp] theorem pfDiv_nan_left (b : PyF) : pfDiv .nan b = .nan := by
  cases b <;> rfl

@[simp] theorem pfDiv_nan_right (a : PyF) : pfDiv a .nan = .nan := by
  cases a <;> rfl

@[simp] theorem pfLog_nan : pfLog .nan = .nan := rfl

@[simp] theorem pfAdd_nan_left (b : PyF) : pfAdd .nan b = .nan := by
  cases b <;> rfl

@[simp] theorem pfAdd_nan_right (a : PyF) : pfAdd a .nan = .nan := by
  cases a <;> rfl

@[simp] theorem isNan_nan : (PyF.nan).isNan = true := rfl

@[simp] theorem isNan_fin (x : ℝ) : (PyF.fin x).isNan = false := rfl

@[simp] theorem isNan_inf : (PyF.inf).isNan = false := rfl

@[simp] theorem isNan_ninf : (PyF.ninf).isNan = false := rfl

/-- Helper: prepending a `nan` does not change the valid price count. -/
theorem validPriceCount_cons_nan (l : List PyF) :
    validPriceCount (.nan :: l) = validPriceCount l := by
  simp [validPriceCount, List.countP_cons]

/-- Helper: prepending a non-`nan` value raises the valid price count by
one. -/
theorem validPriceCount_cons_of_not_nan (v : PyF) (l : List PyF)
    (hv : v.isNan = false) :
    validPriceCount (v :: l) = validPriceCount l + 1 := by
  simp [validPriceCount, List.countP_cons, hv]

/-- Helper: with at most one non-`nan` price, every consecutive ratio has a
`nan` operand, so the filtered log returns of the tail are empty. -/
theorem logsFiltered_nil_aux (ds : List PyF) :
    ∀ prev : PyF, validPriceCount (prev :: ds) ≤ 1 →
      ((ds.zipWith pfDiv (prev :: ds)).map pfLog).filter (fun v => !v.isNan) = [] := by
  induction ds with
  | nil => intro prev _; rfl
  | cons d ds ih =>
    intro prev hcount
    have hz : (d :: ds).zipWith pfDiv (prev :: d :: ds) =
        pfDiv d prev :: ds.zipWith pfDiv (d :: ds) := rfl
    rw [hz, List.map_cons, List.filter_cons]
    by_cases hprev : prev.isNan = true
    · have hpn : prev = .nan := by cases prev <;> simp_all [PyF.isNan]
      subst hpn
      rw [pfDiv_nan_right, pfLog_nan]
      simp only [isNan_nan, Bool.not_true, if_neg (by simp : ¬ (false = true))]
      apply ih d
      rw [validPriceCount_cons_nan] at hcount
      exact hcount
    · have hp1 : prev.isNan = false := by
        cases hb : prev.isNan
        · rfl
        · exact absurd hb hprev
      have hcd : validPriceCount (d :: ds) = 0 := by
        rw [validPriceCount_cons_of_not_nan prev _ hp1] at hcount
        omega
      have hdn : d = .nan := by
        by_contra hb
        have hb' : d.isNan = false := by cases d <;> simp_all [PyF.isNan]
        rw [validPriceCount_cons_of_not_nan d _ hb'] at hcd
        omega
      subst hdn
      rw [pfDiv_nan_left, pfLog_nan]
      simp only [isNan_nan, Bool.not_true, if_neg (by simp : ¬ (false = true))]
      apply ih .nan
      rw [validPriceCount_cons_nan]
      rw [validPriceCount_cons_nan] at hcd
      omega

/-- Helper: fewer than two non-missing prices always ends in the
insufficient-data error. -/
theorem calc_hist_vol_insufficient (data : List PyF)
    (h : validPriceCount data < 2) :
    calc_hist_vol data = .error .insufficientData := by
  unfold calc_hist_vol
  by_cases hlen : data.length < 2
  · rw [if_pos hlen]
  · rw [if_neg hlen]
    have hnil : logReturnsF data = [] := by
      cases data with
      | nil => rfl
      | cons d ds =>
        unfold logReturnsF
        apply logsFiltered_nil_aux (d :: ds) .nan
        rw [validPriceCount_cons_nan]
        omega
    rw [hnil]
    simp

/-- Helper: consecutive ratios of a constant series. -/
theorem zipWith_pfDiv_replicate (v : PyF) (k : ℕ) :
    (List.replicate k v).zipWith pfDiv (v :: List.replicate k v) =
      List.replicate k (pfDiv v v) := by
  induction k with
  | zero => rfl
  | succ k ih =>
    show (v :: List.replicate k v).zipWith pfDiv (v :: (v :: List.replicate k v)) =
      List.replicate (k + 1) (pfDiv v v)
    rw [List.zipWith_cons_cons, ih]
    rfl

/-- Helper: the filtered log returns of a constant positive series of length
`n ≥ 1` are `n - 1` zeros. -/
theorem logReturnsF_replicate (c : ℝ) (hc : c ≠ 0) (n : ℕ) (hn : 1 ≤ n) :
    logReturnsF (List.replicate n (.fin c)) = List.replicate (n - 1) (.fin 0) := by
  obtain ⟨m, rfl⟩ : ∃ m, n = m + 1 := ⟨n - 1, by omega⟩
  unfold logReturnsF
  show (((PyF.fin c :: List.replicate m (PyF.fin c)).zipWith pfDiv
      (PyF.nan :: PyF.fin c :: List.replicate m (PyF.fin c))).map pfLog).filter
      (fun v => !v.isNan) = List.replicate (m + 1 - 1) (PyF.fin 0)
  rw [List.zipWith_cons_cons, zipWith_pfDiv_replicate]
  have hdiv : pfDiv (PyF.fin c) (PyF.fin c) = .fin 1 := by
    simp [pfDiv, hc, div_self hc]
  have hlog1 : pfLog (PyF.fin 1) = .fin 0 := by
    norm_num [pfLog]
  rw [hdiv, List.map_cons, pfDiv_nan_right, pfLog_nan, List.map_replicate, hlog1,
    List.filter_cons]
  simp only [isNan_nan, Bool.not_true, if_neg (by simp : ¬ (false = true))]
  rw [List.filter_eq_self.mpr]
  · simp
  · intro a ha
    rw [List.eq_of_mem_replicate ha]
    rfl

/-- Helper: folding `pfAdd` over finite zeros is the identity. -/
theorem foldl_pfAdd_replicate_zero (k : ℕ) :
    ∀ a : ℝ, (List.replicate k (PyF.fin 0)).foldl pfAdd (.fin a) = .fin a := by
  induction k with
  | zero => intro a; rfl
  | succ k ih =>
    intro a
    show (List.replicate k (PyF.fin 0)).foldl pfAdd (pfAdd (.fin a) (.fin 0)) = .fin a
    have h : pfAdd (PyF.fin a) (PyF.fin 0) = .fin a := by
      show PyF.fin (a + 0) = .fin a
      rw [add_zero]
    rw [h]
    exact ih a

/-- Helper: pandas sample std of `k ≥ 2` zeros is zero. -/
theorem pfStd_replicate_zero (k : ℕ) (hk : 2 ≤ k) :
    pfStd (List.replicate k (.fin 0)) = .fin 0 := by
  have hlen : (List.replicate k (PyF.fin 0)).length = k := List.length_replicate k _
  have hsum : pfSum (List.replicate k (PyF.fin 0)) = .fin 0 :=
    foldl_pfAdd_replicate_zero k 0
  have hkR : ((k : ℝ)) ≠ 0 := Nat.cast_ne_zero.mpr (by omega)
  have hk1R : ((k : ℝ)) - 1 ≠ 0 := by
    have : (2 : ℝ) ≤ (k : ℝ) := by exact_mod_cast hk
    linarith
  have hmean : pfMean (List.replicate k (PyF.fin 0)) = .fin 0 := by
    unfold pfMean
    rw [hsum, hlen]
    simp [pfDiv, hkR]
  unfold pfStd
  rw [if_neg (by rw [hlen]; omega), hmean, hlen, List.map_replicate]
  have hdev : pfMul (pfSub (PyF.fin 0) (PyF.fin 0)) (pfSub (PyF.fin 0) (PyF.fin 0)) =
      .fin 0 := by
    show PyF.fin ((0 + -(0 : ℝ)) * (0 + -(0 : ℝ))) = PyF.fin 0
    norm_num
  rw [hdev, hsum]
  have hdiv0 : pfDiv (PyF.fin 0) (PyF.fin ((k : ℝ) - 1)) = .fin 0 := by
    simp [pfDiv, hk1R]
  rw [hdiv0]
  norm_num [pfSqrt]

/-- Helper: a constant positive series of length `n ≥ 2` hits the degenerate
volatility error (`nan` sample std for `n = 2`, zero volatility for
`n ≥ 3`). -/
theorem calc_hist_vol_replicate (c : ℝ) (hc : 0 < c) (n : ℕ) (hn : 2 ≤ n) :
    calc_hist_vol (List.replicate n (.fin c)) = .error .degenerateVolatility := by
  have hlog : logReturnsF (List.replicate n (.fin c)) =
      List.replicate (n - 1) (.fin 0) :=
    logReturnsF_replicate c (ne_of_gt hc) n (by omega)
  unfold calc_hist_vol
  rw [if_neg (by rw [List.length_replicate]; omega), hlog]
  rw [if_neg (by rw [List.length_replicate]; omega)]
  by_cases h2 : n = 2
  · subst h2
    show (if pfDegenerate (pfMul (pfStd (List.replicate 1 (PyF.fin 0)))
      (pfSqrt (PyF.fin 252))) then _ else _) = _
    have hstd1 : pfStd (List.replicate 1 (PyF.fin 0)) = .nan := by
      unfold pfStd
      rw [if_pos (by rw [List.length_replicate]; omega)]
    have hs252 : pfSqrt (PyF.fin 252) = .fin (Real.sqrt 252) := by
      norm_num [pfSqrt]
    rw [hstd1, hs252]
    rw [if_pos (show pfDegenerate (pfMul PyF.nan (PyF.fin (Real.sqrt 252))) from
      trivial)]
  · have hstd : pfStd (List.replicate (n - 1) (PyF.fin 0)) = .fin 0 :=
      pfStd_replicate_zero (n - 1) (by omega)
    rw [hstd]
    have hs252 : pfSqrt (PyF.fin 252) = .fin (Real.sqrt 252) := by
      norm_num [pfSqrt]
    rw [hs252]
    have hmul : pfMul (PyF.fin 0) (PyF.fin (Real.sqrt 252)) = .fin 0 := by
      show PyF.fin (0 * Real.sqrt 252) = _
      rw [zero_mul]
    rw [hmul]
    rw [if_pos (show pfDegenerate (PyF.fin 0) from le_refl 0)]

/-- Helper: the mapped logs of an all-positive finite tail are the finite
real log returns. -/
theorem map_pfLog_zipWith_pos (ps : List ℝ) :
    ∀ prev : ℝ, 0 < prev → (∀ p ∈ ps, 0 < p) →
      ((ps.map PyF.fin).zipWith pfDiv (.fin prev :: ps.map PyF.fin)).map pfLog =
        (ps.zipWith (fun cu pv => Real.log (cu / pv)) (prev :: ps)).map PyF.fin := by
  induction ps with
  | nil => intro prev _ _; rfl
  | cons p ps ih =>
    intro prev hprev hpos
    have hdiv : pfDiv (PyF.fin p) (PyF.fin prev) = .fin (p / prev) := by
      simp [pfDiv, ne_of_gt hprev]
    have hq : 0 < p / prev := div_pos (hpos p (by simp)) hprev
    have hlogv : pfLog (PyF.fin (p / prev)) = .fin (Real.log (p / prev)) := by
      simp [pfLog, not_lt.mpr hq.le, ne_of_gt hq]
    simp only [List.map_cons, List.zipWith_cons_cons, hdiv, hlogv]
    rw [ih p (hpos p (by simp)) (fun q hq' => hpos q (by simp [hq']))]

/-- Helper: on an all-positive finite series the filtered log returns are
exactly the real log returns (only the leading shift `nan` is dropped). -/
theorem logReturnsF_map_fin (ps : List ℝ) (hpos : ∀ p ∈ ps, 0 < p) :
    logReturnsF (ps.map PyF.fin) = (logReturns ps).map PyF.fin := by
  cases ps with
  | nil => rfl
  | cons p ps =>
    unfold logReturnsF logReturns
    simp only [List.map_cons, List.zipWith_cons_cons, pfDiv_nan_right, pfLog_nan]
    rw [map_pfLog_zipWith_pos ps p (hpos p (by simp))
      (fun q hq' => hpos q (by simp [hq']))]
    rw [List.filter_cons]
    simp only [isNan_nan, Bool.not_true, if_neg (by simp : ¬ (false = true))]
    rw [List.filter_eq_self.mpr]
    · rfl
    · intro a ha
      obtain ⟨x, _, rfl⟩ := List.mem_map.mp ha
      rfl

/-- Helper: folding `pfAdd` over an all-finite list is real addition. -/
theorem foldl_pfAdd_map_fin (xs : List ℝ) :
    ∀ a : ℝ, (xs.map PyF.fin).foldl pfAdd (.fin a) = .fin (xs.foldl (· + ·) a) := by
  induction xs with
  | nil => intro a; rfl
  | cons x xs ih =>
    intro a
    simp only [List.map_cons, List.foldl_cons]
    show (xs.map PyF.fin).foldl pfAdd (PyF.fin (a + x)) = _
    rw [ih (a + x)]

/-- Helper: left fold of addition is the sum shifted by the seed. -/
theorem foldl_add_eq_sum (xs : List ℝ) :
    ∀ a : ℝ, xs.foldl (· + ·) a = a + xs.sum := by
  induction xs with
  | nil => intro a; simp
  | cons x xs ih =>
    intro a
    simp only [List.foldl_cons, List.sum_cons, ih (a + x)]
    ring

/-- Helper: pandas sum of an all-finite series is the real sum. -/
theorem pfSum_map_fin (xs : List ℝ) : pfSum (xs.map PyF.fin) = .fin xs.sum := by
  unfold pfSum
  rw [foldl_pfAdd_map_fin, foldl_add_eq_sum]
  norm_num

/-- Helper: pandas `std` of an all-finite series of length at least two is
the real sample standard deviation. -/
theorem pfStd_map_fin (rs : List ℝ) (h2 : 2 ≤ rs.length) :
    pfStd (rs.map PyF.fin) = .fin (sampleStd rs) := by
  have hlen : (rs.map PyF.fin).length = rs.length := List.length_map rs _
  have hlenR : ((rs.length : ℝ)) ≠ 0 := Nat.cast_ne_zero.mpr (by omega)
  have hlen1R : ((rs.length : ℝ)) - 1 ≠ 0 := by
    have : (2 : ℝ) ≤ (rs.length : ℝ) := by exact_mod_cast h2
    linarith
  have hmean : pfMean (rs.map PyF.fin) = .fin (rs.sum / rs.length) := by
    unfold pfMean
    rw [pfSum_map_fin, hlen]
    simp [pfDiv, hlenR]
  unfold pfStd
  rw [if_neg (by rw [hlen]; omega), hmean, hlen]
  have hmap : (rs.map PyF.fin).map
      (fun x => pfMul (pfSub x (.fin (rs.sum / rs.length)))
        (pfSub x (.fin (rs.sum / rs.length)))) =
      (rs.map fun x => (x - rs.sum / rs.length) ^ 2).map PyF.fin := by
    rw [List.map_map, List.map_map]
    apply List.map_congr_left
    intro x _
    simp only [Function.comp_apply]
    show PyF.fin ((x + -(rs.sum / (rs.length : ℝ))) * (x + -(rs.sum / (rs.length : ℝ)))) =
      PyF.fin ((x - rs.sum / (rs.length : ℝ)) ^ 2)
    exact congrArg PyF.fin (by ring)
  rw [hmap, pfSum_map_fin]
  have hdiv : pfDiv (PyF.fin ((rs.map fun x => (x - rs.sum / rs.length) ^ 2).sum))
      (PyF.fin ((rs.length : ℝ) - 1)) =
      .fin ((rs.map fun x => (x - rs.sum / rs.length) ^ 2).sum / ((rs.length : ℝ) - 1)) := by
    simp [pfDiv, hlen1R]
  rw [hdiv]
  have harg : 0 ≤ ((rs.map fun x => (x - rs.sum / rs.length) ^ 2).sum /
      ((rs.length : ℝ) - 1)) := by
    apply div_nonneg
    · apply List.sum_nonneg
      intro y hy
      obtain ⟨x, _, rfl⟩ := List.mem_map.mp hy
      positivity
    · have : (2 : ℝ) ≤ (rs.length : ℝ) := by exact_mod_cast h2
      linarith
  simp [pfSqrt, not_lt.mpr harg, sampleStd]

/-- Claim C5: the volatility estimator's failure modes, as raised by the
three distinct `ValueError` sites of `calc_hist_vol`: fewer than two valid
(non-missing) price points give the insufficient-data error, an empty list
of log returns after `dropna` gives the insufficient-data error, a computed
annualized volatility that is `<= 0` or `nan` gives the
degenerate-volatility error, and in particular every constant positive
series of length at least two gives the degenerate-volatility error. -/
theorem C5_vol_error_modes (data : List PyF) (c : ℝ) (n : ℕ)
    (hc : 0 < c) (hn : 2 ≤ n) :
    (validPriceCount data < 2 → calc_hist_vol data = .error .insufficientData) ∧
    (2 ≤ data.length → logReturnsF data = [] →
      calc_hist_vol data = .error .insufficientData) ∧
    (2 ≤ data.length → logReturnsF data ≠ [] →
      pfDegenerate (pfMul (pfStd (logReturnsF data)) (pfSqrt (.fin 252))) →
      calc_hist_vol data = .error .degenerateVolatility) ∧
    calc_hist_vol (List.replicate n (.fin c)) = .error .degenerateVolatility := by
  refine ⟨calc_hist_vol_insufficient data, ?_, ?_,
    calc_hist_vol_replicate c hc n hn⟩
  · intro hlen hnil
    unfold calc_hist_vol
    rw [if_neg (by omega), hnil]
    simp
  · intro hlen hne hdeg
    unfold calc_hist_vol
    rw [if_neg (by omega),
      if_neg (by simpa [List.length_eq_zero] using hne), if_pos hdeg]

/-- Witness for C5 with the empty series and the constant series `[1, 1]`. -/
theorem C5_vol_error_modes_witness :
    ((validPriceCount [] < 2 → calc_hist_vol [] = .error .insufficientData) ∧
     (2 ≤ ([] : List PyF).length → logReturnsF [] = [] →
       calc_hist_vol [] = .error .insufficientData) ∧
     (2 ≤ ([] : List PyF).length → logReturnsF [] ≠ [] →
       pfDegenerate (pfMul (pfStd (logReturnsF [])) (pfSqrt (.fin 252))) →
       calc_hist_vol [] = .error .degenerateVolatility) ∧
     calc_hist_vol (List.replicate 2 (.fin 1)) = .error .degenerateVolatility) :=
  C5_vol_error_modes [] 1 2 (by norm_num) (by norm_num)

/-- Counterexample for C6: the series `[1, 0, 1, 2, 3, 5]` has at least two
valid observations, yet the zero price is not dropped: it produces the log
returns `-inf` (from `0/1`) and `inf` (from `1/0`), which `dropna` keeps, so
the sample std is `nan` and the call fails with the degenerate-volatility
error instead of returning the std of the remaining finite log returns. -/
theorem C6_counterexample :
    2 ≤ validPriceCount
        [PyF.fin 1, PyF.fin 0, PyF.fin 1, PyF.fin 2, PyF.fin 3, PyF.fin 5] ∧
    calc_hist_vol
        [PyF.fin 1, PyF.fin 0, PyF.fin 1, PyF.fin 2, PyF.fin 3, PyF.fin 5] =
      .error .degenerateVolatility := by
  constructor
  · simp [validPriceCount, List.countP_cons]
  · have hlog : logReturnsF
        [PyF.fin 1, PyF.fin 0, PyF.fin 1, PyF.fin 2, PyF.fin 3, PyF.fin 5] =
        [PyF.ninf, PyF.inf, PyF.fin (Real.log 2), PyF.fin (Real.log (3 / 2)),
          PyF.fin (Real.log (5 / 3))] := by
      unfold logReturnsF
      norm_num [pfDiv, pfLog, List.filter_cons]
    have hstdnan : pfStd [PyF.ninf, PyF.inf, PyF.fin (Real.log 2),
        PyF.fin (Real.log (3 / 2)), PyF.fin (Real.log (5 / 3))] = .nan := rfl
    unfold calc_hist_vol
    rw [if_neg (by norm_num), hlog, if_neg (by norm_num), hstdnan]
    have hs252 : pfSqrt (PyF.fin 252) = .fin (Real.sqrt 252) := by
      norm_num [pfSqrt]
    rw [hs252]
    rw [if_pos (show pfDegenerate (pfMul PyF.nan (PyF.fin (Real.sqrt 252))) from
      trivial)]

/-- Claim C6 amended: on a series of positive finite prices with at least
three observations (hence at least two log returns, so the sample std is a
real number) and positive sample std, `calc_hist_vol` returns the sample
standard deviation of the consecutive log returns times `sqrt 252`.  The
original claim's "drops any undefined values arising from missing or zero
prices" holds only for missing (`nan`) prices; zero prices yield infinite
log returns that are kept by `dropna` and force the degenerate-volatility
error (see the counterexample). -/
theorem C6_vol_formula_amended (ps : List ℝ) (hpos : ∀ p ∈ ps, 0 < p)
    (hlen : 3 ≤ ps.length) (hstd : 0 < sampleStd (logReturns ps)) :
    calc_hist_vol (ps.map PyF.fin) =
      .ok (.fin (sampleStd (logReturns ps) * Real.sqrt 252)) := by
  have hlr : logReturnsF (ps.map PyF.fin) = (logReturns ps).map PyF.fin :=
    logReturnsF_map_fin ps hpos
  have hlrlen : (logReturns ps).length = ps.length - 1 := by
    unfold logReturns
    rw [List.length_zipWith, List.length_tail]
    omega
  unfold calc_hist_vol
  rw [if_neg (by rw [List.length_map]; omega), hlr,
    if_neg (by rw [List.length_map]; omega)]
  rw [pfStd_map_fin _ (by omega)]
  have hs252 : pfSqrt (PyF.fin 252) = .fin (Real.sqrt 252) := by
    norm_num [pfSqrt]
  rw [hs252]
  have hmul : pfMul (PyF.fin (sampleStd (logReturns ps)))
      (PyF.fin (Real.sqrt 252)) =
      .fin (sampleStd (logReturns ps) * Real.sqrt 252) := rfl
  rw [hmul]
  rw [if_neg (show ¬ pfDegenerate
    (PyF.fin (sampleStd (logReturns ps) * Real.sqrt 252)) from
    not_le.mpr (mul_pos hstd (Real.sqrt_pos.mpr (by norm_num))))]

/-- Witness for the amended C6 on the price series `[1, e, 1]`, whose log
returns are `[1, -1]` with sample std `sqrt 2`. -/
theorem C6_vol_formula_amended_witness :
    calc_hist_vol ([1, Real.exp 1, 1].map PyF.fin) =
      .ok (.fin (sampleStd (logReturns [1, Real.exp 1, 1]) * Real.sqrt 252)) := by
  have hlogs : logReturns [1, Real.exp 1, 1] = [1, -1] := by
    show [Real.log (Real.exp 1 / 1), Real.log (1 / Real.exp 1)] = [1, -1]
    rw [div_one, Real.log_exp, one_div, Real.log_inv, Real.log_exp]
  refine C6_vol_formula_amended [1, Real.exp 1, 1] ?_ (by norm_num) ?_
  · intro p hp
    simp only [List.mem_cons, List.not_mem_nil, or_false] at hp
    rcases hp with rfl | rfl | rfl
    · norm_num
    · exact Real.exp_pos 1
    · norm_num
  · rw [hlogs]
    have h2 : sampleStd [(1 : ℝ), -1] = Real.sqrt 2 := by
      unfold sampleStd
      norm_num
    rw [h2]
    exact Real.sqrt_pos.mpr (by norm_num)

/-- Helper: a step of the retry loop that succeeds immediately. -/
theorem retryFrom_eq_ok {E A : Type} (op : ℕ → Except E A) (b : ℝ) (m : ℤ)
    (attempt : ℕ) (h : (attempt : ℤ) < m) (a : A) (hop : op attempt = .ok a) :
    retryFrom op b m attempt = ⟨.value a, [], 1⟩ := by
  rw [retryFrom, dif_pos h]
  simp only [hop]

/-- Helper: the final attempt fails and the error is re-raised. -/
theorem retryFrom_eq_raised {E A : Type} (op : ℕ → Except E A) (b : ℝ) (m : ℤ)
    (attempt : ℕ) (h : (attempt : ℤ) < m) (hlast : ¬ (attempt : ℤ) < m - 1)
    (e : E) (hop : op attempt = .error e) :
    retryFrom op b m attempt = ⟨.raised e, [], 1⟩ := by
  rw [retryFrom, dif_pos h]
  simp only [hop]
  rw [if_neg hlast]

/-- Helper: a non-final attempt fails, waits `b * 2 ^ attempt`, and retries. -/
theorem retryFrom_eq_retry {E A : Type} (op : ℕ → Except E A) (b : ℝ) (m : ℤ)
    (attempt : ℕ) (h : (attempt : ℤ) < m) (hmore : (attempt : ℤ) < m - 1)
    (e : E) (hop : op attempt = .error e)
    (res : RetryResult E A) (ws : List ℝ) (cs : ℕ)
    (hrest : retryFrom op b m (attempt + 1) = ⟨res, ws, cs⟩) :
    retryFrom op b m attempt = ⟨res, b * 2 ^ attempt :: ws, cs + 1⟩ := by
  rw [retryFrom, dif_pos h]
  simp only [hop]
  rw [if_pos hmore, hrest]

/-- Helper: prepending the first wait to shifted waits gives the unshifted
wait list. -/
theorem waits_cons_shift (b : ℝ) (attempt k : ℕ) :
    b * 2 ^ attempt :: (List.range k).map (fun i => b * 2 ^ (attempt + 1 + i)) =
      (List.range (k + 1)).map (fun i => b * 2 ^ (attempt + i)) := by
  rw [List.range_succ_eq_map, List.map_cons, List.map_map]
  congr 1
  apply List.map_congr_left
  intro i _
  simp only [Function.comp_apply]
  rw [show attempt + 1 + i = attempt + Nat.succ i by omega]

/-- Helper: when every attempt of the remaining window fails, the wrapper
performs all of them, waits after each non-final one, and re-raises the
error of the last attempt. -/
theorem retryFrom_fail_all {E A : Type} (op : ℕ → Except E A) (b : ℝ)
    (err : ℕ → E) :
    ∀ (jj attempt : ℕ) (m : ℤ), (attempt : ℤ) + (jj + 1) = m →
      (∀ i, attempt ≤ i → ((i : ℤ)) < m → op i = .error (err i)) →
      retryFrom op b m attempt =
        ⟨.raised (err (attempt + jj)),
          (List.range jj).map (fun i => b * 2 ^ (attempt + i)), jj + 1⟩ := by
  intro jj
  induction jj with
  | zero =>
    intro attempt m hm hop
    rw [retryFrom_eq_raised op b m attempt (by omega) (by omega)
      (err attempt) (hop attempt le_rfl (by omega))]
    simp
  | succ jj ih =>
    intro attempt m hm hop
    rw [retryFrom_eq_retry op b m attempt (by omega) (by omega)
      (err attempt) (hop attempt le_rfl (by omega)) _ _ _
      (ih (attempt + 1) m (by omega) (fun i h1 h2 => hop i (by omega) h2))]
    rw [waits_cons_shift]
    rw [show attempt + 1 + jj = attempt + (jj + 1) by omega]

/-- Helper: when the first `k` attempts fail and attempt `k` succeeds, the
wrapper returns the success value after exactly `k` waits. -/
theorem retryFrom_succeeds {E A : Type} (op : ℕ → Except E A) (b : ℝ)
    (err : ℕ → E) (a : A) :
    ∀ (k attempt : ℕ) (m : ℤ), (attempt : ℤ) + k < m →
      (∀ i, attempt ≤ i → i < attempt + k → op i = .error (err i)) →
      op (attempt + k) = .ok a →
      retryFrom op b m attempt =
        ⟨.value a, (List.range k).map (fun i => b * 2 ^ (attempt + i)), k + 1⟩ := by
  intro k
  induction k with
  | zero =>
    intro attempt m hm hop hok
    rw [retryFrom_eq_ok op b m attempt (by omega) a (by simpa using hok)]
    simp
  | succ k ih =>
    intro attempt m hm hop hok
    have hrest := ih (attempt + 1) m (by omega)
      (fun i h1 h2 => hop i (by omega) (by omega))
      (by rw [show attempt + 1 + k = attempt + (k + 1) by omega]; exact hok)
    rw [retryFrom_eq_retry op b m attempt (by omega) (by omega)
      (err attempt) (hop attempt le_rfl (by omega)) _ _ _ hrest]
    rw [waits_cons_shift]

/-- Claim C8: for a wrapper with `max_retries = m ≥ 1`: an operation failing
on every attempt has the last error re-raised after exactly `m` invocations
and `m - 1` backoff waits, the wait before retry number `attempt` being
`backoff_factor * 2 ^ attempt`; an operation succeeding on attempt `n ≤ m`
returns its value after exactly `n` invocations and `n - 1` waits. -/
theorem C8_retry_policy {E A : Type} (b : ℝ) (m : ℕ) (err : ℕ → E)
    (hm : 1 ≤ m) :
    (∀ op : ℕ → Except E A, (∀ i, i < m → op i = .error (err i)) →
      retry_with_backoff (m : ℤ) b op =
        ⟨.raised (err (m - 1)), (List.range (m - 1)).map (fun i => b * 2 ^ i),
          m⟩) ∧
    (∀ (op : ℕ → Except E A) (a : A) (n : ℕ), 1 ≤ n → n ≤ m →
      (∀ i, i < n - 1 → op i = .error (err i)) → op (n - 1) = .ok a →
      retry_with_backoff (m : ℤ) b op =
        ⟨.value a, (List.range (n - 1)).map (fun i => b * 2 ^ i), n⟩) := by
  constructor
  · intro op hop
    unfold retry_with_backoff
    have h := retryFrom_fail_all op b err (m - 1) 0 (m : ℤ) (by omega)
      (fun i _ h2 => hop i (by omega))
    rw [h]
    simp only [Nat.zero_add]
    rw [show m - 1 + 1 = m by omega]
  · intro op a n hn1 hnm hop hok
    unfold retry_with_backoff
    have h := retryFrom_succeeds op b err a (n - 1) 0 (m : ℤ) (by omega)
      (fun i _ h2 => hop i (by omega))
      (by rw [Nat.zero_add]; exact hok)
    rw [h]
    simp only [Nat.zero_add]
    rw [show n - 1 + 1 = n by omega]

/-- Witness for C8 with `max_retries = 3`, `backoff_factor = 3/2`: an
always-failing operation, and one failing twice then succeeding. -/
theorem C8_retry_policy_witness :
    retry_with_backoff (3 : ℤ) (3 / 2) (fun i => (Except.error i : Except ℕ ℕ)) =
      ⟨.raised 2, (List.range 2).map (fun i => 3 / 2 * 2 ^ i), 3⟩ ∧
    retry_with_backoff (3 : ℤ) (3 / 2)
        (fun i => if i < 2 then (Except.error i : Except ℕ ℕ) else .ok 7) =
      ⟨.value 7, (List.range 2).map (fun i => 3 / 2 * 2 ^ i), 3⟩ := by
  constructor
  · exact (C8_retry_policy (E := ℕ) (A := ℕ) (3 / 2) 3 (fun i => i)
      (by norm_num)).1 (fun i => .error i) (fun i _ => rfl)
  · exact (C8_retry_policy (E := ℕ) (A := ℕ) (3 / 2) 3 (fun i => i)
      (by norm_num)).2 (fun i => if i < 2 then .error i else .ok 7) 7 3
      (by norm_num) (by norm_num) (fun i hi => by simp [hi]) (by norm_num)

/-- Claim C10: with `max_retries` zero (or negative) the `for` loop body
never runs, so the wrapper returns Python's implicit `None` without invoking
the wrapped operation and without raising. -/
theorem C10_retry_nonpositive {E A : Type} (op : ℕ → Except E A) (b : ℝ)
    (m : ℤ) (hm : m ≤ 0) :
    retry_with_backoff m b op = ⟨.pyNone, [], 0⟩ := by
  unfold retry_with_backoff
  rw [retryFrom, dif_neg (by omega)]

/-- Witness for C10 at `max_retries = 0`. -/
theorem C10_retry_nonpositive_witness :
    retry_with_backoff (0 : ℤ) 1 (fun _ => (Except.ok 0 : Except ℕ ℕ)) =
      ⟨.pyNone, [], 0⟩ :=
  C10_retry_nonpositive _ _ _ (by norm_num)

/-- Claim C7: the risk-free rate resolver never fails outward and always
returns a positive usable rate: a positive quote `q` gives `q / 100`, and a
missing quote, a non-positive quote, or a raised provider failure gives the
default `0.02`. -/
theorem C7_risk_free_rate (f : RateFetch) :
    (0 < get_risk_free_rate f) ∧
    (∀ q, f = .quote (some q) → 0 < q → get_risk_free_rate f = q / 100) ∧
    (∀ q, f = .quote (some q) → q ≤ 0 → get_risk_free_rate f = 0.02) ∧
    (f = .quote none → get_risk_free_rate f = 0.02) ∧
    (f = .failure → get_risk_free_rate f = 0.02) := by
  refine ⟨?_, ?_, ?_, ?_, ?_⟩
  · match f with
    | .failure => norm_num [get_risk_free_rate]
    | .quote none => norm_num [get_risk_free_rate]
    | .quote (some q) =>
      by_cases hq : q ≠ 0 ∧ 0 < q
      · rw [show get_risk_free_rate (.quote (some q)) =
          (if q ≠ 0 ∧ 0 < q then q / 100 else 0.02) from rfl, if_pos hq]
        exact div_pos hq.2 (by norm_num)
      · rw [show get_risk_free_rate (.quote (some q)) =
          (if q ≠ 0 ∧ 0 < q then q / 100 else 0.02) from rfl, if_neg hq]
        norm_num
  · rintro q rfl hq
    rw [show get_risk_free_rate (.quote (some q)) =
      (if q ≠ 0 ∧ 0 < q then q / 100 else 0.02) from rfl,
      if_pos ⟨ne_of_gt hq, hq⟩]
  · rintro q rfl hq
    rw [show get_risk_free_rate (.quote (some q)) =
      (if q ≠ 0 ∧ 0 < q then q / 100 else 0.02) from rfl,
      if_neg (by rintro ⟨h1, h2⟩; exact absurd h2 (not_lt.mpr hq))]
  · rintro rfl; rfl
  · rintro rfl; rfl

/-- Witness for C7 at the quote `5` (a positive percentage-point price). -/
theorem C7_risk_free_rate_witness :
    get_risk_free_rate (.quote (some 5)) = 5 / 100 :=
  (C7_risk_free_rate (.quote (some 5))).2.1 5 rfl (by norm_num)

end Lemmata
